import Mathlib

/-!
Verification of the tile-coherency and communication core of the SLATE
repository (bE554357/slate), against its natural-language specification.

The development shallowly embeds:
* `src/src/internal/internal_ttmlq.cc` — the distributed reduction-tree
  application of an LQ triangle-triangle factorization (`ttmlq`), as a pure
  function producing the list of communication/compute events one rank emits;
* the MOSI tile-coherency protocol of the spec (its implementation is not
  under `src/`; only the assertion at `internal_ttmlq.cc:244` is);
* `src/include/slate/BandMatrix.hh` — bandwidth getters/setters;
* `src/src/omptarget/device_geset.cc` — element-wise tile initialization.

Machine integers of the source (`int`, `int64_t`) are modelled as `Nat`
(tile indices, ranks, counts — all non-negative in every execution) and
`Int` (message tags, bandwidths).
-/

namespace slate

/-- The `Side` enum of `slate/types.hh` (`blas::Side`): which side Q is
applied on. -/
inductive Side
  | Left
  | Right
deriving DecidableEq, Repr

/-- The `Op` enum of `slate/types.hh` (`blas::Op`): transposition op. -/
inductive Op
  | NoTrans
  | Trans
  | ConjTrans
deriving DecidableEq, Repr

/-- MOSI coherency states of a tile instance (spec section 3; the MOSI
implementation of the repository is not under `src/`). -/
inductive MOSI
  | Invalid
  | Shared
  | Owned
  | Modified
deriving DecidableEq, Repr

namespace internal

/-- Communication and kernel events emitted by `ttmlq`
(`internal_ttmlq.cc`), in program order, for the rank running it:
`send i j dst tag` is `C.tileSend(i, j, dst, tag)`,
`recv i j src tag` is `C.tileRecv(i, j, src, layout, tag)`,
`update rank_ind i j i1 j1` is the `tpmlqt(side, op, ..., A(0, rank_ind),
T(0, rank_ind), C(i1, j1), C(i, j))` task. -/
inductive Event
  | send (i j : Nat) (dst : Nat) (tag : Int)
  | recv (i j : Nat) (src : Nat) (tag : Int)
  | update (rank_ind i j i1 j1 : Nat)
deriving DecidableEq, Repr

/-- Inputs of `ttmlq` that the communication pattern depends on
(`internal_ttmlq.cc:42-49`).  `AtileRank j` is `A.tileRank(0, j)` (A has a
single row of tiles, `assert(A.mt() == 1)`); `CtileRank i j` is
`C.tileRank(i, j)`; `my_rank` is the MPI rank running this copy of the
code, so `C.tileIsLocal(i, j)` is `CtileRank i j = my_rank`. -/
structure TtmlqParams where
  side : Side
  op : Op
  A_nt : Nat
  AtileRank : Nat → Nat
  Cmt : Nat
  Cnt : Nat
  CtileRank : Nat → Nat → Nat
  my_rank : Nat
  tag : Int

/-- Line 106: `bool descend = (side == Side::Left) != (op == Op::NoTrans)`. -/
def descend (side : Side) (op : Op) : Bool :=
  (side == Side.Left) != (op == Op.NoTrans)

/-- Helper for `nlevels`: structurally recursive ceiling base-2
logarithm (`fuel` bounds the recursion depth; any `fuel >= n` gives the
exact value, see `nlevelsFuel_eq_clog`). -/
def nlevelsFuel : Nat → Nat → Nat
  | 0, _ => 0
  | fuel + 1, n => if n ≤ 1 then 0 else nlevelsFuel fuel ((n + 1) / 2) + 1

/-- Line 88: `int nlevels = int( ceil( log2( nranks ) ) )`.  For
`nranks >= 1` the exact real value `ceil(log2 nranks)` is `Nat.clog 2
nranks` (the `double` computation is exact for the representable range of
`int`); `nlevels` computes it (lemma `nlevels_eq_clog`). -/
def nlevels (nranks : Nat) : Nat :=
  nlevelsFuel nranks nranks

/-- Lines 107-111: initial step.  `step = pow(2, nlevels - 1)` if
descending, else `step = 1`.  (When `nlevels = 0` the C code computes
`int(pow(2.0, -1)) = 0`, but the level loop then runs zero times and the
value is never read; the `Nat` expression gives `2 ^ 0 = 1` there,
equally unread.) -/
def initStep (descend : Bool) (nlevels : Nat) : Nat :=
  if descend then 2 ^ (nlevels - 1) else 1

/-- Lines 123 and 268-271: the sequence of `step` values over the levels:
the loop body sees `s`, then `step /= 2` (descending) or `step *= 2`
(ascending). -/
def stepSeq (descend : Bool) : Nat → Nat → List Nat
  | 0, _ => []
  | L + 1, s => s :: stepSeq descend L (if descend then s / 2 else s * 2)

/-- The step values used by the `nlevels`-iteration level loop of `ttmlq`
(one entry per executed level). -/
def stepsList (descend : Bool) (L : Nat) : List Nat :=
  stepSeq descend L (initStep descend L)

/-- Line 124: `for (int index = 0; index < nranks; index += step)` — the
participant indices visited at a level, i.e. `0, step, 2*step, ...` below
`nranks` (for the `step >= 1` ttmlq always uses). -/
def indexList (nranks step : Nat) : List Nat :=
  (List.range ((nranks + step - 1) / step)).map (fun m => m * step)

/-- Lines 130-137 etc.: row index of the C tile scanned at trailing
position `k` (`i = rank_ind` if Left, `i = k` if Right). -/
def cI (side : Side) (rank_ind k : Nat) : Nat :=
  match side with
  | Side.Left => rank_ind
  | Side.Right => k

/-- Column index of the C tile scanned at trailing position `k`
(`j = k` if Left, `j = rank_ind` if Right). -/
def cJ (side : Side) (rank_ind k : Nat) : Nat :=
  match side with
  | Side.Left => k
  | Side.Right => rank_ind

/-- Lines 113-121: `k_end = C.nt()` if Left, `C.mt()` if Right. -/
def kEnd (P : TtmlqParams) : Nat :=
  match P.side with
  | Side.Left => P.Cnt
  | Side.Right => P.Cmt

/-- Lines 67-87: the participant list `rank_indices`.  First the set of
ranks in the single row of A (`std::set<int>` iterates its elements in
increasing order, here the sorted deduplicated ranks). -/
def ranksList (f : Nat → Nat) (nt : Nat) : List Nat :=
  List.insertionSort (· ≤ ·) (((List.range nt).map f).dedup)

/-- Lines 76-81: each rank's first (left-most) column in the row of A. -/
def firstOwnedIdx (f : Nat → Nat) (nt : Nat) (r : Nat) : Option Nat :=
  (List.range nt).find? (fun j => f j == r)

/-- Lines 73-85: `rank_indices`, pairs `(rank, first owned column)`,
sorted by the column index (`std::sort` with `compareSecond`; the column
indices are pairwise distinct, so the sorted order is unique). -/
def rankIndices (f : Nat → Nat) (nt : Nat) : List (Nat × Nat) :=
  List.insertionSort (fun a b => a.2 ≤ b.2)
    ((ranksList f nt).filterMap
      (fun r => (firstOwnedIdx f nt r).map (fun j => (r, j))))

/-- Lines 129-173, first `k` loop ("send, receive"): per trailing index
`k`, on the locally owned C tile, a lower participant with a partner sends
its tile (lines 139-155), an upper participant receives its partner's tile
(lines 157-171).  `ri.getD index (0, 0)` is `rank_indices[index]` (always
in bounds during execution). -/
def phase1 (P : TtmlqParams) (ri : List (Nat × Nat)) (step index : Nat) :
    List Event :=
  let rank_ind := (ri.getD index (0, 0)).2
  (List.range (kEnd P)).flatMap (fun k =>
    let i := cI P.side rank_ind k
    let j := cJ P.side rank_ind k
    if P.CtileRank i j = P.my_rank then
      if index % (2 * step) = 0 then
        if index + step < ri.length then
          let k_dst := (ri.getD (index + step) (0, 0)).2
          let i_dst := cI P.side k_dst k
          let j_dst := cJ P.side k_dst k
          [Event.send i j (P.CtileRank i_dst j_dst) P.tag]
        else []
      else
        let k_src := (ri.getD (index - step) (0, 0)).2
        let i1 := cI P.side k_src k
        let j1 := cJ P.side k_src k
        [Event.recv i1 j1 (P.CtileRank i1 j1) P.tag]
    else [])

/-- Lines 176-219, second `k` loop ("update"): an upper participant
applies `tpmlqt` to the panel tiles `A(0, rank_ind)`, `T(0, rank_ind)`,
the received tile `C(i1, j1)` and its local tile `C(i, j)`. -/
def phase2 (P : TtmlqParams) (ri : List (Nat × Nat)) (step index : Nat) :
    List Event :=
  let rank_ind := (ri.getD index (0, 0)).2
  (List.range (kEnd P)).flatMap (fun k =>
    let i := cI P.side rank_ind k
    let j := cJ P.side rank_ind k
    if P.CtileRank i j = P.my_rank then
      if index % (2 * step) = 0 then []
      else
        let k_src := (ri.getD (index - step) (0, 0)).2
        let i1 := cI P.side k_src k
        let j1 := cJ P.side k_src k
        [Event.update rank_ind i j i1 j1]
    else [])

/-- Lines 221-266, third `k` loop ("receive, send"): a lower participant
with a partner receives the updated tile back into the same `(i, j)`
(lines 231-246, with the `Modified` assertion), an upper participant
sends the combined `C(i1, j1)` back to its source (lines 248-263). -/
def phase3 (P : TtmlqParams) (ri : List (Nat × Nat)) (step index : Nat) :
    List Event :=
  let rank_ind := (ri.getD index (0, 0)).2
  (List.range (kEnd P)).flatMap (fun k =>
    let i := cI P.side rank_ind k
    let j := cJ P.side rank_ind k
    if P.CtileRank i j = P.my_rank then
      if index % (2 * step) = 0 then
        if index + step < ri.length then
          let k_dst := (ri.getD (index + step) (0, 0)).2
          let i_dst := cI P.side k_dst k
          let j_dst := cJ P.side k_dst k
          [Event.recv i j (P.CtileRank i_dst j_dst) P.tag]
        else []
      else
        let k_src := (ri.getD (index - step) (0, 0)).2
        let i1 := cI P.side k_src k
        let j1 := cJ P.side k_src k
        [Event.send i1 j1 (P.CtileRank i1 j1) P.tag]
    else [])

/-- Lines 124-267: all events of one `index` iteration (the three `k`
loops in order). -/
def indexEvents (P : TtmlqParams) (ri : List (Nat × Nat))
    (step index : Nat) : List Event :=
  phase1 P ri step index ++ phase2 P ri step index ++ phase3 P ri step index

/-- One level of the reduction tree: the `index` loop at a fixed step. -/
def levelEvents (P : TtmlqParams) (ri : List (Nat × Nat)) (step : Nat) :
    List Event :=
  (indexList ri.length step).flatMap (indexEvents P ri step)

/-- Lines 123-272: the whole level loop over a given participant list. -/
def traceFromIndices (P : TtmlqParams) (ri : List (Nat × Nat)) :
    List Event :=
  (stepsList (descend P.side P.op) (nlevels ri.length)).flatMap
    (levelEvents P ri)

/-- The full event trace of `ttmlq` on one rank (lines 42-273):
participant list computed from the distribution of A, then the level
loop. -/
def ttmlqTrace (P : TtmlqParams) : List Event :=
  traceFromIndices P (rankIndices P.AtileRank P.A_nt)

/-- The trailing positions `k` whose C tile this rank owns (the
`C.tileIsLocal(i, j)` guard of every `k` loop). -/
def localKs (P : TtmlqParams) (rank_ind : Nat) : List Nat :=
  (List.range (kEnd P)).filter (fun k =>
    decide (P.CtileRank (cI P.side rank_ind k) (cJ P.side rank_ind k) = P.my_rank))

/-- Stated from the spec's words (section 4.4 step 3), to be compared with
`indexEvents`: a participant index that is a multiple of `2*step` and has
a partner sends each locally owned trailing tile of C to the partner rank
and later receives the updated result back into the same tile; a
participant index that is a multiple of `step` but not of `2*step`
receives the partner's tile, applies the opaque kernel combining the
panel tiles with the received and the local trailing tile, then sends the
combined result back to the partner. -/
def specIndexEvents (P : TtmlqParams) (ri : List (Nat × Nat))
    (step index : Nat) : List Event :=
  let rank_ind := (ri.getD index (0, 0)).2
  if index % (2 * step) = 0 then
    if index + step < ri.length then
      let k_dst := (ri.getD (index + step) (0, 0)).2
      let dstRank := fun k => P.CtileRank (cI P.side k_dst k) (cJ P.side k_dst k)
      ((localKs P rank_ind).map (fun k =>
          Event.send (cI P.side rank_ind k) (cJ P.side rank_ind k) (dstRank k) P.tag))
        ++ ((localKs P rank_ind).map (fun k =>
          Event.recv (cI P.side rank_ind k) (cJ P.side rank_ind k) (dstRank k) P.tag))
    else []
  else
    let k_src := (ri.getD (index - step) (0, 0)).2
    let srcRank := fun k => P.CtileRank (cI P.side k_src k) (cJ P.side k_src k)
    ((localKs P rank_ind).map (fun k =>
        Event.recv (cI P.side k_src k) (cJ P.side k_src k) (srcRank k) P.tag))
      ++ ((localKs P rank_ind).map (fun k =>
        Event.update rank_ind (cI P.side rank_ind k) (cJ P.side rank_ind k)
          (cI P.side k_src k) (cJ P.side k_src k)))
      ++ ((localKs P rank_ind).map (fun k =>
        Event.send (cI P.side k_src k) (cJ P.side k_src k) (srcRank k) P.tag))

/-- The message tag carried by a transfer event (`none` for the local
kernel task, which does not touch the network). -/
def eventTag : Event → Option Int
  | Event.send _ _ _ t => some t
  | Event.recv _ _ _ t => some t
  | Event.update _ _ _ _ _ => none

/-- Tile values for the global (all-ranks) semantics of one reduction,
one trailing tile per participant index.  Modelled from the spec: the
opaque kernel (`tpmlqt`, repository file `internal/Tile_tpmlqt.hh`, not
under `src/`) updates in place both of its C operands — the received copy
`C(i1, j1)` and the local tile `C(i, j)`, the latter acquired with
`tileGetForWriting` at `internal_ttmlq.cc:204` — so one application has
two outputs, tracked as free constructors: `combFst hi a b` is the
combined tile sent back to the lower participant, `combSnd hi a b` the
updated local tile of the upper participant `hi`. -/
inductive Val
  | leaf (r : Nat)
  | combFst (hi : Nat) (a b : Val)
  | combSnd (hi : Nat) (a b : Val)
deriving DecidableEq, Repr

/-- The lower indices of the pairs active at one level: multiples of
`step` (the `index` loop) that are multiples of `2*step` (line 139/231)
and have a partner (`index + step < nranks`, line 140/232). -/
def pairsAt (step nranks : Nat) : List Nat :=
  (indexList nranks step).filter
    (fun idx => decide (idx % (2 * step) = 0) && decide (idx + step < nranks))

/-- Global effect of one active pair `(lo, lo + step)`, composed from the
per-rank code under the spec's point-to-point messaging: `lo` sends its
tile; `lo + step` receives it, the kernel produces the two outputs; the
first is sent back and stored into `lo`'s tile (line 245), the second
stays in `lo + step`'s local tile. -/
def applyPair (step : Nat) (t : Nat → Val) (lo : Nat) : Nat → Val :=
  fun x =>
    if x = lo then Val.combFst (lo + step) (t lo) (t (lo + step))
    else if x = lo + step then Val.combSnd (lo + step) (t lo) (t (lo + step))
    else t x

/-- Global effect of one level: all active pairs, in loop order (the
pairs are disjoint, so the order does not matter). -/
def runLevel (step nranks : Nat) (t : Nat → Val) : Nat → Val :=
  (pairsAt step nranks).foldl (applyPair step) t

/-- Global effect of the whole reduction tree on the participants' tiles
(one trailing tile per participant, the spec's section 8 scenario
shape). -/
def runReduction (descend : Bool) (nranks : Nat) (t : Nat → Val) :
    Nat → Val :=
  (stepsList descend (nlevels nranks)).foldl
    (fun t s => runLevel s nranks t) t

/-- The set of original participants contributing to a tile value. -/
def contribs : Val → Finset Nat
  | Val.leaf r => {r}
  | Val.combFst _ a b => contribs a ∪ contribs b
  | Val.combSnd _ a b => contribs a ∪ contribs b

end internal

namespace coherency

/-- Modelled from the spec: the coherency state of one tile coordinate is
the MOSI state of each memory location (host, devices, remote copies),
here located by a `Nat` id.  The MOSI protocol implementation of the
repository is not under `src/`; spec sections 3 and 4.1 describe it. -/
def CoherencyState : Type :=
  Nat → MOSI

/-- Modelled from the spec (section 4.1 `acquireForWriting`, and
`internal_ttmlq.cc:153` `tileGetForWriting`): acquiring write access
invalidates all other locations' copies and sets the acquirer to
`Modified`. -/
def tileGetForWriting (loc : Nat) : CoherencyState :=
  fun l => if l = loc then MOSI.Modified else MOSI.Invalid

/-- Modelled from the spec (section 4.2 `send`): sending serializes and
transmits the buffer; it does not change any coherency state. -/
def tileSendState (s : CoherencyState) : CoherencyState :=
  s

/-- Modelled from the spec: the transitions of the per-coordinate
coherency protocol (sections 3 and 4.1-4.2).  Reading an `Invalid` copy
fetches from a non-`Invalid` source, sets the reader `Shared` and leaves
the source authoritative (a `Modified` source becomes `Owned`); writing
invalidates every other location; a receive deposits `Shared` data (a
concurrent `Modified` elsewhere would be a fatal protocol violation, so
it is a precondition); a location holding no unflushed writes may be
evicted. -/
inductive CoherencyStep : CoherencyState → CoherencyState → Prop
  | acquireWrite (s : CoherencyState) (loc : Nat) :
      CoherencyStep s (tileGetForWriting loc)
  | acquireReadHit (s : CoherencyState) (loc : Nat)
      (h : s loc ≠ MOSI.Invalid) :
      CoherencyStep s s
  | acquireReadFetch (s : CoherencyState) (loc src : Nat)
      (hloc : s loc = MOSI.Invalid) (hsrc : s src ≠ MOSI.Invalid)
      (hne : src ≠ loc) :
      CoherencyStep s (fun l =>
        if l = loc then MOSI.Shared
        else if l = src then
          (if s src = MOSI.Modified then MOSI.Owned else s src)
        else s l)
  | sendTile (s : CoherencyState) :
      CoherencyStep s (tileSendState s)
  | recvTile (s : CoherencyState) (loc : Nat)
      (h : ∀ l, l ≠ loc → s l ≠ MOSI.Modified) :
      CoherencyStep s (fun l => if l = loc then MOSI.Shared else s l)
  | evict (s : CoherencyState) (loc : Nat) (h : s loc ≠ MOSI.Modified) :
      CoherencyStep s (fun l => if l = loc then MOSI.Invalid else s l)

/-- The spec's invariant (sections 3 and 8): if some location is
`Modified`, every other location is `Invalid` (hence at most one location
is ever `Modified`). -/
def MosiInv (s : CoherencyState) : Prop :=
  ∀ l, s l = MOSI.Modified → ∀ l', l' ≠ l → s l' = MOSI.Invalid

/-- A state is reachable when some sequence of protocol transitions leads
to it from the initial state. -/
def Reachable (init s : CoherencyState) : Prop :=
  Relation.ReflTransGen CoherencyStep init s

end coherency

/-- The data of `BandMatrix` (`slate/BandMatrix.hh`) that the bandwidth
accessors read: the `kl_` and `ku_` fields and the transposition op of
the base `Matrix` (`this->op()`). -/
structure BandMatrix where
  op : Op
  kl_ : Int
  ku_ : Int
deriving DecidableEq, Repr

/-- Lines 179-184: `lowerBandwidth()` returns
`op() == NoTrans ? kl_ : ku_`. -/
def BandMatrix.lowerBandwidth (M : BandMatrix) : Int :=
  if M.op = Op.NoTrans then M.kl_ else M.ku_

/-- Lines 186-194: `lowerBandwidth(kl)` writes `kl_` when
`op() == NoTrans`, else `ku_` (the C++ setter overloads the getter's
name). -/
def BandMatrix.lowerBandwidth_set (M : BandMatrix) (kl : Int) : BandMatrix :=
  if M.op = Op.NoTrans then { M with kl_ := kl } else { M with ku_ := kl }

/-- Lines 196-201: `upperBandwidth()` returns
`op() == NoTrans ? ku_ : kl_`. -/
def BandMatrix.upperBandwidth (M : BandMatrix) : Int :=
  if M.op = Op.NoTrans then M.ku_ else M.kl_

/-- Lines 203-211: `upperBandwidth(ku)` writes `ku_` when
`op() == NoTrans`, else `kl_`. -/
def BandMatrix.upperBandwidth_set (M : BandMatrix) (ku : Int) : BandMatrix :=
  if M.op = Op.NoTrans then { M with ku_ := ku } else { M with kl_ := ku }

namespace device

/-- The sequence of element writes of `device::geset`
(`device_geset.cc:50-57`): for each row `i < m` and column `j < n`, the
linear index `i + j*lda` receives `(j != i) ? offdiag_value :
diag_value`.  (The loops run concurrently on the device; each index is
written at most once, so the order is immaterial — the list keeps the
source's loop order.) -/
def linWrites {α : Type} (m n : Nat) (offdiag_value diag_value : α)
    (lda : Nat) : List (Nat × α) :=
  (List.range m).flatMap (fun i =>
    (List.range n).map (fun j =>
      (i + j * lda, if j ≠ i then offdiag_value else diag_value)))

/-- One element store into the linear array. -/
def writeCell {α : Type} (A : Nat → α) (w : Nat × α) : Nat → α :=
  fun idx => if idx = w.1 then w.2 else A idx

/-- `device::geset` (`device_geset.cc:38-58`) on the array viewed as a
map from linear indices to elements: quick return when `m == 0 || n == 0`,
else perform all the element writes. -/
def geset {α : Type} (m n : Nat) (offdiag_value diag_value : α)
    (A : Nat → α) (lda : Nat) : Nat → α :=
  if m = 0 ∨ n = 0 then A
  else (linWrites m n offdiag_value diag_value lda).foldl writeCell A

namespace batch

/-- `device::batch::geset` (`device_geset.cc:122-149`): quick return when
`batch_count == 0` or `m == 0 || n == 0`, else apply the element writes
to each tile `Aarray[k]`, `k < batch_count`. -/
def geset {α : Type} (m n : Nat) (offdiag_value diag_value : α)
    (Aarray : Nat → Nat → α) (lda batch_count : Nat) : Nat → Nat → α :=
  if batch_count = 0 then Aarray
  else if m = 0 ∨ n = 0 then Aarray
  else fun k =>
    if k < batch_count then
      device.geset m n offdiag_value diag_value (Aarray k) lda
    else Aarray k

end batch

end device

end slate

namespace slate

namespace internal

lemma nlevelsFuel_eq_clog : ∀ (fuel n : Nat), n ≤ fuel →
    nlevelsFuel fuel n = Nat.clog 2 n
  | 0, n, h => by
    interval_cases n
    simp [nlevelsFuel]
  | fuel + 1, n, h => by
    rw [nlevelsFuel]
    by_cases h1 : n ≤ 1
    · rw [if_pos h1, Nat.clog_of_right_le_one h1]
    · rw [if_neg h1]
      have h2 : 2 ≤ n := by omega
      rw [Nat.clog_of_two_le (by norm_num) h2]
      have harg : (n + 2 - 1) / 2 = (n + 1) / 2 := by norm_num
      rw [harg, nlevelsFuel_eq_clog fuel ((n + 1) / 2) (by omega)]

lemma nlevels_eq_clog (n : Nat) : nlevels n = Nat.clog 2 n :=
  nlevelsFuel_eq_clog n n le_rfl

lemma stepSeq_length (d : Bool) : ∀ (L s : Nat), (stepSeq d L s).length = L
  | 0, _ => rfl
  | L + 1, s => by simp [stepSeq, stepSeq_length d L]

lemma stepSeq_ascend : ∀ (L s : Nat),
    stepSeq false L s = (List.range L).map (fun l => s * 2 ^ l)
  | 0, _ => rfl
  | L + 1, s => by
    have hred : (if false = true then s / 2 else s * 2) = s * 2 := rfl
    rw [stepSeq, hred, stepSeq_ascend L (s * 2), List.range_succ_eq_map,
      List.map_cons, List.map_map]
    have hf : ((fun l => s * 2 ^ l) ∘ Nat.succ) = (fun l => s * 2 * 2 ^ l) := by
      funext l
      simp only [Function.comp_apply, pow_succ]
      ring
    rw [hf]
    simp

lemma stepSeq_descend_pow : ∀ (n : Nat),
    stepSeq true (n + 1) (2 ^ n) = (List.range (n + 1)).map (fun l => 2 ^ (n - l))
  | 0 => rfl
  | n + 1 => by
    have h2 : 2 ^ (n + 1) / 2 = 2 ^ n := by
      rw [pow_succ]
      exact Nat.mul_div_cancel _ (by norm_num)
    have hred : (if true = true then 2 ^ (n + 1) / 2 else 2 ^ (n + 1) * 2)
        = 2 ^ (n + 1) / 2 := rfl
    rw [stepSeq, hred, h2, List.range_succ_eq_map, List.map_cons, List.map_map]
    have hf : ((fun l => 2 ^ (n + 1 - l)) ∘ Nat.succ) = (fun l => 2 ^ (n - l)) := by
      funext l
      simp [Function.comp, Nat.succ_sub_succ]
    simp only [hf, Nat.sub_zero]
    rw [stepSeq_descend_pow n]

lemma stepsList_ascend (L : Nat) :
    stepsList false L = (List.range L).map (fun l => 2 ^ l) := by
  rw [stepsList, initStep]
  simpa using stepSeq_ascend L 1

lemma stepsList_descend (L : Nat) :
    stepsList true L = (List.range L).map (fun l => 2 ^ (L - 1 - l)) := by
  cases L with
  | zero => rfl
  | succ n =>
    rw [stepsList, initStep]
    simpa [Nat.succ_sub_one] using stepSeq_descend_pow n

lemma range_pow_reverse (L : Nat) :
    (List.range L).map (fun l => 2 ^ (L - 1 - l))
      = ((List.range L).map (fun l => (2 : Nat) ^ l)).reverse := by
  apply List.ext_getElem
  · simp
  · intro i h1 h2
    rw [List.getElem_reverse]
    simp only [List.getElem_map, List.getElem_range, List.length_map,
      List.length_range]

/-- C4: for L = ceil(log2(N)) levels, the step sizes across levels are
2^(L-1), 2^(L-2), ..., 1 when the direction flag selects root-to-leaf
(descend = true), and 1, 2, ..., 2^(L-1) when it selects leaf-to-root
(descend = false); the descending level schedule is exactly the reverse
of the ascending one. -/
theorem ttmlq_step_schedule (L : Nat) :
    stepsList true L = (List.range L).map (fun l => 2 ^ (L - 1 - l))
      ∧ stepsList false L = (List.range L).map (fun l => 2 ^ l)
      ∧ stepsList true L = (stepsList false L).reverse := by
  refine ⟨stepsList_descend L, stepsList_ascend L, ?_⟩
  rw [stepsList_descend L, stepsList_ascend L]
  exact range_pow_reverse L

/-- C1: for a reduction over a panel with N >= 1 participants, the level
loop executes exactly ceil(log2(N)) levels (`Nat.clog 2 N`, the value
characterized by N <= 2^L and, for N >= 2, 2^(L-1) < N); for N = 1 the
level loop runs zero times and the event trace is empty — no tile is
sent or received. -/
theorem ttmlq_levels (P : TtmlqParams) (ri : List (Nat × Nat))
    (hN : 1 ≤ ri.length) :
    (stepsList (descend P.side P.op) (nlevels ri.length)).length
        = Nat.clog 2 ri.length
      ∧ ri.length ≤ 2 ^ nlevels ri.length
      ∧ (2 ≤ ri.length → 2 ^ (nlevels ri.length - 1) < ri.length)
      ∧ (ri.length = 1 → traceFromIndices P ri = []) := by
  refine ⟨?_, ?_, ?_, ?_⟩
  · rw [stepsList]
    exact (stepSeq_length _ _ _).trans (nlevels_eq_clog _)
  · rw [nlevels_eq_clog]
    exact Nat.le_pow_clog (by norm_num) _
  · intro h2
    rw [nlevels_eq_clog]
    exact Nat.pow_pred_clog_lt_self (by norm_num) h2
  · intro h1
    simp [traceFromIndices, h1, nlevels, nlevelsFuel, stepsList, stepSeq,
      initStep]

/-- Witness for C1 at a one-participant panel. -/
theorem ttmlq_levels_witness :
    1 ≤ ([((0 : Nat), (0 : Nat))] : List (Nat × Nat)).length
      ∧ ((stepsList (descend Side.Left Op.NoTrans) (nlevels 1)).length
            = Nat.clog 2 1
          ∧ 1 ≤ 2 ^ nlevels 1
          ∧ (2 ≤ 1 → 2 ^ (nlevels 1 - 1) < 1)
          ∧ (1 = 1 →
              traceFromIndices
                ⟨Side.Left, Op.NoTrans, 1, fun _ => 0, 1, 1, fun _ _ => 0, 0, 0⟩
                [((0 : Nat), (0 : Nat))] = [])) :=
  ⟨by decide,
    ttmlq_levels
      ⟨Side.Left, Op.NoTrans, 1, fun _ => 0, 1, 1, fun _ _ => 0, 0, 0⟩
      [((0 : Nat), (0 : Nat))] (by decide)⟩

lemma flatMap_ite_singleton {α : Type} (l : List Nat) (p : Nat → Prop)
    [DecidablePred p] (f : Nat → α) :
    (l.flatMap fun k => if p k then [f k] else [])
      = (l.filter fun k => decide (p k)).map f := by
  induction l with
  | nil => rfl
  | cons a t ih =>
    by_cases h : p a <;> simp [h, ih]

/-- C3: at each level with step s, a participant index that is a
multiple of 2*s with a partner (index + s < nranks) sends each locally
owned trailing tile of C to the partner rank and later receives the
updated result back into the same tile; an index that is a multiple of s
but not of 2*s receives the partner's tile, applies the opaque kernel
(tpmlqt) combining the panel tiles A(0, j_r), T(0, j_r) with the received
and the local trailing tile, then sends the combined result back to the
partner: the events of one `index` iteration of the code coincide with
the spec-side description `specIndexEvents`. -/
theorem ttmlq_index_behaviour (P : TtmlqParams) (ri : List (Nat × Nat))
    (step index : Nat) :
    indexEvents P ri step index = specIndexEvents P ri step index := by
  by_cases h1 : index % (2 * step) = 0
  · by_cases h2 : index + step < ri.length
    · simp only [indexEvents, phase1, phase2, phase3, specIndexEvents,
        localKs, if_pos h1, if_pos h2, ite_self]
      rw [flatMap_ite_singleton, flatMap_ite_singleton]
      simp [localKs]
    · simp only [indexEvents, phase1, phase2, phase3, specIndexEvents,
        if_pos h1, if_neg h2, ite_self]
      simp
  · simp only [indexEvents, phase1, phase2, phase3, specIndexEvents,
      if_neg h1]
    rw [flatMap_ite_singleton, flatMap_ite_singleton, flatMap_ite_singleton]
    simp [localKs]

/-- C6: an index that is a multiple of 2*step but has no partner
(index + step >= nranks) emits no event at that level: it is skipped,
with no padding participant. -/
theorem ttmlq_skip_unpaired (P : TtmlqParams) (ri : List (Nat × Nat))
    (step index : Nat) (h1 : index % (2 * step) = 0)
    (h2 : ri.length ≤ index + step) :
    indexEvents P ri step index = [] := by
  have h2' : ¬ (index + step < ri.length) := by omega
  simp only [indexEvents, phase1, phase2, phase3, if_pos h1, if_neg h2',
    ite_self]
  simp

/-- Witness for C6: with three participants (not a power of two), at the
level with step 1, index 2 is a multiple of 2 with no partner and emits
nothing. -/
theorem ttmlq_skip_unpaired_witness :
    2 % (2 * 1) = 0
      ∧ ([((0 : Nat), (0 : Nat)), (1, 1), (2, 2)] : List (Nat × Nat)).length ≤ 2 + 1
      ∧ indexEvents
          ⟨Side.Left, Op.NoTrans, 3, fun j => j, 3, 1, fun i _ => i, 0, 0⟩
          [((0 : Nat), (0 : Nat)), (1, 1), (2, 2)] 1 2 = [] :=
  ⟨by decide, by decide,
    ttmlq_skip_unpaired
      ⟨Side.Left, Op.NoTrans, 3, fun j => j, 3, 1, fun i _ => i, 0, 0⟩
      [((0 : Nat), (0 : Nat)), (1, 1), (2, 2)] 1 2 (by decide) (by decide)⟩

lemma eventTag_of_mem_indexEvents (P : TtmlqParams) (ri : List (Nat × Nat))
    (step index : Nat) (e : Event) (he : e ∈ indexEvents P ri step index) :
    eventTag e = none ∨ eventTag e = some P.tag := by
  simp only [indexEvents, List.mem_append, phase1, phase2, phase3,
    List.mem_flatMap] at he
  rcases he with (⟨k, _, hbody⟩ | ⟨k, _, hbody⟩) | ⟨k, _, hbody⟩ <;>
    split_ifs at hbody <;> simp_all [eventTag]

/-- C7: every transfer (send or receive) issued within one reduction
carries exactly the reduction's tag (the `tag` argument `ttmlq` was
called with per factorization step); hence two reductions invoked with
different tags — e.g. a look-ahead panel and a trailing-matrix update
for different panels in flight concurrently — never share a tag, so
their messages never alias. -/
theorem ttmlq_tag_discipline :
    (∀ (P : TtmlqParams) (e : Event) (t : Int),
        e ∈ ttmlqTrace P → eventTag e = some t → t = P.tag)
      ∧ (∀ (P Q : TtmlqParams) (e f : Event) (t u : Int),
          P.tag ≠ Q.tag → e ∈ ttmlqTrace P → f ∈ ttmlqTrace Q →
          eventTag e = some t → eventTag f = some u → t ≠ u) := by
  have main : ∀ (P : TtmlqParams) (e : Event) (t : Int),
      e ∈ ttmlqTrace P → eventTag e = some t → t = P.tag := by
    intro P e t he htag
    simp only [ttmlqTrace, traceFromIndices, levelEvents,
      List.mem_flatMap] at he
    obtain ⟨s, _, idx, _, he⟩ := he
    rcases eventTag_of_mem_indexEvents P _ s idx e he with hnone | hsome
    · rw [hnone] at htag
      exact absurd htag (by simp)
    · rw [hsome] at htag
      exact (Option.some_inj.mp htag).symm
  refine ⟨main, ?_⟩
  intro P Q e f t u hne heP hfQ ht hu
  rw [main P e t heP ht, main Q f u hfQ hu]
  exact hne

/-- Witness for C7 at a two-participant reduction with tag 7: the trace
contains a send event, and its tag is the reduction's tag. -/
theorem ttmlq_tag_discipline_witness :
    Event.send 0 0 1 7
        ∈ ttmlqTrace ⟨Side.Left, Op.NoTrans, 2, fun j => j, 2, 1, fun i _ => i, 0, 7⟩
      ∧ eventTag (Event.send 0 0 1 7) = some 7
      ∧ (7 : Int) = (7 : Int) :=
  ⟨by decide, by decide,
    ttmlq_tag_discipline.1
      ⟨Side.Left, Op.NoTrans, 2, fun j => j, 2, 1, fun i _ => i, 0, 7⟩
      (Event.send 0 0 1 7) 7 (by decide) (by decide)⟩

end internal

namespace coherency

lemma mosi_step_preserves (s t : CoherencyState) (hs : MosiInv s)
    (hstep : CoherencyStep s t) : MosiInv t := by
  cases hstep with
  | acquireWrite loc =>
    intro l hl l' hne
    simp only [tileGetForWriting] at hl ⊢
    by_cases h : l = loc
    · subst h
      rw [if_neg (show ¬ l' = l from hne)]
    · rw [if_neg h] at hl
      exact absurd hl (by decide)
  | acquireReadHit loc h =>
    exact hs
  | acquireReadFetch loc src hloc hsrc hne =>
    intro l hl l' hne'
    exfalso
    simp only [] at hl
    by_cases h1 : l = loc
    · rw [if_pos h1] at hl
      exact absurd hl (by decide)
    · rw [if_neg h1] at hl
      by_cases h2 : l = src
      · rw [if_pos h2] at hl
        by_cases h3 : s src = MOSI.Modified
        · rw [if_pos h3] at hl
          exact absurd hl (by decide)
        · rw [if_neg h3] at hl
          exact h3 hl
      · rw [if_neg h2] at hl
        exact hsrc (hs l hl src (fun h => h2 h.symm))
  | sendTile =>
    exact hs
  | recvTile loc hguard =>
    intro l hl l' hne'
    exfalso
    simp only [] at hl
    by_cases h1 : l = loc
    · rw [if_pos h1] at hl
      exact absurd hl (by decide)
    · rw [if_neg h1] at hl
      exact hguard l h1 hl
  | evict loc hM =>
    intro l hl l' hne'
    simp only [] at hl ⊢
    by_cases h1 : l = loc
    · rw [if_pos h1] at hl
      exact absurd hl (by decide)
    · rw [if_neg h1] at hl
      by_cases h2 : l' = loc
      · rw [if_pos h2]
      · rw [if_neg h2]
        exact hs l hl l' hne'

/-- C2: in every state of the coherency protocol reachable from a state
satisfying the MOSI invariant, whenever some location of a tile
coordinate is `Modified` every other location is `Invalid` (so at most
one location is ever `Modified`); moreover, in `ttmlq`, after
`tileGetForWriting` on a local tile of C and its `tileSend` (which does
not change coherency state), the host copy is still `Modified` at the
point of the later `tileRecv` — the assertion of
`internal_ttmlq.cc:244` holds. -/
theorem mosi_coherency_invariant :
    (∀ init s, MosiInv init → Reachable init s → MosiInv s)
      ∧ (∀ s, MosiInv s →
          ∀ l l', s l = MOSI.Modified → s l' = MOSI.Modified → l = l')
      ∧ (∀ (s : CoherencyState) (host : Nat),
          CoherencyStep s (tileGetForWriting host)
            ∧ tileSendState (tileGetForWriting host) host = MOSI.Modified
            ∧ MosiInv (tileSendState (tileGetForWriting host))) := by
  refine ⟨?_, ?_, ?_⟩
  · intro init s hinit hr
    induction hr with
    | refl => exact hinit
    | tail _ hstep ih => exact mosi_step_preserves _ _ ih hstep
  · intro s hs l l' hl hl'
    by_contra hne
    have hinv := hs l hl l' (fun h => hne h.symm)
    exact absurd (hinv.symm.trans hl') (by decide)
  · intro s host
    refine ⟨CoherencyStep.acquireWrite s host, ?_, ?_⟩
    · simp [tileSendState, tileGetForWriting]
    · intro l hl l' hne
      simp only [tileSendState, tileGetForWriting] at hl ⊢
      by_cases h : l = host
      · subst h
        rw [if_neg (show ¬ l' = l from hne)]
      · rw [if_neg h] at hl
        exact absurd hl (by decide)

/-- Witness for C2 from the all-`Invalid` initial state (trivially
satisfying the invariant) with the empty transition sequence. -/
theorem mosi_coherency_invariant_witness :
    MosiInv (fun _ => MOSI.Invalid)
      ∧ Reachable (fun _ => MOSI.Invalid) (fun _ => MOSI.Invalid)
      ∧ MosiInv (fun _ => MOSI.Invalid) :=
  ⟨(fun _ hl => nomatch hl), Relation.ReflTransGen.refl,
    mosi_coherency_invariant.1 (fun _ => MOSI.Invalid) (fun _ => MOSI.Invalid)
      (fun _ hl => nomatch hl) Relation.ReflTransGen.refl⟩

end coherency

namespace internal

/-- C8 counterexample: in the 4-rank scenario run leaf-to-root, rank 1's
tile after the reduction is the in-place output of the level-0 kernel
application, not its pre-reduction value: the claim that ranks 1 and 3
end with tiles identical to their pre-reduction state is false. -/
theorem ttmlq_scenario_counterexample :
    runReduction false 4 Val.leaf 1 ≠ Val.leaf 1 := by
  decide

/-- C8 (amended): 4 ranks, one trailing tile per participant, leaf-to-root
(ascending): the level steps are 1 then 2; level 0 activates pairs (0,1)
and (2,3), level 1 the pair (0,2); afterwards rank 0's tile is combined
from contributions of all 4 original tiles; ranks 1 and 3 hold the local
(second) output of the level-0 kernel application — combined in place at
level 0 and not updated afterwards — rather than their pre-reduction
tiles. -/
theorem ttmlq_scenario_amended :
    stepsList false (nlevels 4) = [1, 2]
      ∧ pairsAt 1 4 = [0, 2]
      ∧ pairsAt 2 4 = [0]
      ∧ contribs (runReduction false 4 Val.leaf 0) = {0, 1, 2, 3}
      ∧ runReduction false 4 Val.leaf 0
          = Val.combFst 2 (Val.combFst 1 (Val.leaf 0) (Val.leaf 1))
              (Val.combFst 3 (Val.leaf 2) (Val.leaf 3))
      ∧ runReduction false 4 Val.leaf 1
          = Val.combSnd 1 (Val.leaf 0) (Val.leaf 1)
      ∧ runReduction false 4 Val.leaf 3
          = Val.combSnd 3 (Val.leaf 2) (Val.leaf 3) := by
  refine ⟨by decide, by decide, by decide, by decide, by decide, by decide, by decide⟩

end internal

/-- C9: `lowerBandwidth()` returns `kl_` under `NoTrans` and `ku_`
otherwise, `upperBandwidth()` the opposite; the setters write the
correspondingly selected field, so get-after-set returns the set value
for both accessors, regardless of the matrix's transposition op. -/
theorem bandwidth_get_set (M : BandMatrix) (k : Int) :
    (M.lowerBandwidth = if M.op = Op.NoTrans then M.kl_ else M.ku_)
      ∧ (M.upperBandwidth = if M.op = Op.NoTrans then M.ku_ else M.kl_)
      ∧ (M.lowerBandwidth_set k).lowerBandwidth = k
      ∧ (M.upperBandwidth_set k).upperBandwidth = k := by
  refine ⟨rfl, rfl, ?_, ?_⟩ <;>
  · by_cases h : M.op = Op.NoTrans <;>
      simp [BandMatrix.lowerBandwidth, BandMatrix.lowerBandwidth_set,
        BandMatrix.upperBandwidth, BandMatrix.upperBandwidth_set, h]

namespace device

lemma foldl_writeCell_not_mem {α : Type} :
    ∀ (ws : List (Nat × α)) (A : Nat → α) (idx : Nat),
      (∀ w ∈ ws, w.1 ≠ idx) → (ws.foldl writeCell A) idx = A idx
  | [], _, _, _ => rfl
  | w :: ws, A, idx, h => by
    rw [List.foldl_cons,
      foldl_writeCell_not_mem ws _ idx
        (fun w' hw' => h w' (List.mem_cons_of_mem _ hw'))]
    have hne : idx ≠ w.1 := fun he => h w (List.mem_cons_self _ _) he.symm
    simp [writeCell, hne]

lemma foldl_writeCell_mem {α : Type} :
    ∀ (ws : List (Nat × α)) (A : Nat → α) (idx : Nat) (v : α),
      (idx, v) ∈ ws → (∀ w ∈ ws, w.1 = idx → w.2 = v) →
      (ws.foldl writeCell A) idx = v
  | [], _, _, _, hmem, _ => absurd hmem (List.not_mem_nil _)
  | w :: ws, A, idx, v, hmem, huniq => by
    rw [List.foldl_cons]
    by_cases hws : ∃ u ∈ ws, u.1 = idx
    · obtain ⟨u, hu, hu1⟩ := hws
      have hv : u.2 = v := huniq u (List.mem_cons_of_mem _ hu) hu1
      have hu' : (idx, v) ∈ ws := by
        have heq : u = (idx, v) := Prod.ext hu1 hv
        rwa [heq] at hu
      exact foldl_writeCell_mem ws _ idx v hu'
        (fun w' hw' => huniq w' (List.mem_cons_of_mem _ hw'))
    · push_neg at hws
      rcases List.mem_cons.mp hmem with heq | hmem'
      · rw [foldl_writeCell_not_mem ws _ idx (fun u hu => hws u hu)]
        rw [← heq]
        simp [writeCell]
      · exact absurd rfl (hws _ hmem')

lemma of_mem_linWrites {α : Type} {m n lda : Nat} {off diag : α}
    {w : Nat × α} (hw : w ∈ linWrites m n off diag lda) :
    ∃ i, i < m ∧ ∃ j, j < n
      ∧ w = (i + j * lda, if j ≠ i then off else diag) := by
  simp only [linWrites, List.mem_flatMap, List.mem_map, List.mem_range] at hw
  obtain ⟨i, hi, j, hj, hw⟩ := hw
  exact ⟨i, hi, j, hj, hw.symm⟩

lemma mem_linWrites {α : Type} (m n lda : Nat) (off diag : α)
    {i j : Nat} (hi : i < m) (hj : j < n) :
    (i + j * lda, if j ≠ i then off else diag)
      ∈ linWrites m n off diag lda := by
  simp only [linWrites, List.mem_flatMap, List.mem_map, List.mem_range]
  exact ⟨i, hi, j, hj, rfl⟩

lemma linIdx_inj {lda i i' j j' : Nat} (hi : i < lda) (hi' : i' < lda)
    (h : i + j * lda = i' + j' * lda) : i = i' ∧ j = j' := by
  have hmod : (i + j * lda) % lda = i := by
    rw [Nat.add_mul_mod_self_right, Nat.mod_eq_of_lt hi]
  have hmod' : (i' + j' * lda) % lda = i' := by
    rw [Nat.add_mul_mod_self_right, Nat.mod_eq_of_lt hi']
  have hii : i = i' := by rw [← hmod, ← hmod', h]
  refine ⟨hii, ?_⟩
  have hjj : j * lda = j' * lda := by omega
  exact Nat.eq_of_mul_eq_mul_right (by omega) hjj

/-- C10: after `device::geset(m, n, offdiag_value, diag_value, A, lda)`
with m <= lda, every element `A[i + j*lda]` with i < m, j < n equals the
diagonal value iff i = j and the off-diagonal value otherwise; every
other entry of the array is unchanged; when m = 0 or n = 0 nothing is
written; and in the batched variant `batch_count = 0` writes nothing
while each tile k < batch_count receives exactly the single-tile
update. -/
theorem geset_spec {α : Type} (m n lda : Nat) (offdiag_value diag_value : α)
    (A : Nat → α) (hm : m ≤ lda) :
    (∀ i j, i < m → j < n →
        geset m n offdiag_value diag_value A lda (i + j * lda)
          = if i = j then diag_value else offdiag_value)
      ∧ (∀ idx, (∀ i j, i < m → j < n → idx ≠ i + j * lda) →
          geset m n offdiag_value diag_value A lda idx = A idx)
      ∧ (m = 0 ∨ n = 0 → geset m n offdiag_value diag_value A lda = A)
      ∧ (∀ (Aarray : Nat → Nat → α),
          batch.geset m n offdiag_value diag_value Aarray lda 0 = Aarray)
      ∧ (∀ (Aarray : Nat → Nat → α) (bc k : Nat), k < bc →
          batch.geset m n offdiag_value diag_value Aarray lda bc k
            = geset m n offdiag_value diag_value (Aarray k) lda) := by
  refine ⟨?_, ?_, ?_, ?_, ?_⟩
  · intro i j hi hj
    have hmn : ¬ (m = 0 ∨ n = 0) := by omega
    rw [geset, if_neg hmn]
    have hv : (if j ≠ i then offdiag_value else diag_value)
        = (if i = j then diag_value else offdiag_value) := by
      by_cases h : i = j
      · subst h
        simp
      · have h' : j ≠ i := fun he => h he.symm
        simp [h, h']
    rw [← hv]
    apply foldl_writeCell_mem
    · exact mem_linWrites m n lda _ _ hi hj
    · intro w hw hkey
      obtain ⟨i', hi', j', hj', hw⟩ := of_mem_linWrites hw
      rw [hw] at hkey ⊢
      obtain ⟨hii, hjj⟩ := linIdx_inj (by omega) (by omega) hkey
      simp [hii, hjj]
  · intro idx hmiss
    by_cases hmn : m = 0 ∨ n = 0
    · rw [geset, if_pos hmn]
    · rw [geset, if_neg hmn]
      apply foldl_writeCell_not_mem
      intro w hw
      obtain ⟨i', hi', j', hj', hweq⟩ := of_mem_linWrites hw
      rw [hweq]
      exact fun he => hmiss i' j' hi' hj' he.symm
  · intro hmn
    rw [geset, if_pos hmn]
  · intro Aarray
    rw [batch.geset, if_pos rfl]
  · intro Aarray bc k hk
    have hbc : ¬ (bc = 0) := by omega
    by_cases hmn : m = 0 ∨ n = 0
    · rw [batch.geset, if_neg hbc, if_pos hmn, geset, if_pos hmn]
    · rw [batch.geset, if_neg hbc, if_neg hmn]
      simp only [if_pos hk]

/-- Witness for C10 on a 2-by-2 tile in a 3-by-2 array of integers: the
element at row 0, column 1 is set to the off-diagonal value. -/
theorem geset_spec_witness :
    (2 : Nat) ≤ 3
      ∧ geset 2 2 (5 : Int) 7 (fun _ => 0) 3 (0 + 1 * 3) = 5 :=
  ⟨by decide,
    (geset_spec 2 2 3 (5 : Int) 7 (fun _ => 0) (by decide)).1 0 1
      (by decide) (by decide)⟩

end device

namespace internal

lemma find?_range_eq_some (p : Nat → Bool) : ∀ (n j : Nat),
    (List.range n).find? p = some j
      ↔ (j < n ∧ p j = true ∧ ∀ i, i < j → p i = false) := by
  intro n
  induction n with
  | zero =>
    intro j
    simp
  | succ n ih =>
    intro j
    rw [List.range_succ, List.find?_append]
    cases hfind : (List.range n).find? p with
    | some j' =>
      rw [Option.or_some]
      obtain ⟨hj', hpj', hmin'⟩ := (ih j').mp hfind
      constructor
      · intro h
        obtain rfl : j' = j := by injection h
        exact ⟨Nat.lt_succ_of_lt hj', hpj', hmin'⟩
      · rintro ⟨hj, hpj, hmin⟩
        have hjj : j' = j := by
          rcases Nat.lt_trichotomy j' j with hlt | heq | hgt
          · exact absurd hpj' (by simp [hmin j' hlt])
          · exact heq
          · exact absurd hpj (by simp [hmin' j hgt])
        rw [hjj]
    | none =>
      rw [Option.none_or]
      have hnone : ∀ i, i < n → p i = false := by
        intro i hi
        by_cases hpi : p i = true
        · have hex : ∃ x, x ∈ List.range n ∧ p x :=
            ⟨i, List.mem_range.mpr hi, hpi⟩
          have hsome := List.find?_isSome.mpr hex
          rw [hfind] at hsome
          exact absurd hsome (by simp)
        · exact Bool.eq_false_iff.mpr hpi
      constructor
      · intro h
        rcases List.find?_cons_eq_some.mp h with ⟨hpn, heq⟩ | ⟨_, hnil⟩
        · rw [← heq]
          exact ⟨Nat.lt_succ_self n, hpn, hnone⟩
        · exact absurd hnil (by simp)
      · rintro ⟨hj, hpj, hmin⟩
        have hjn : j = n := by
          rcases Nat.lt_succ_iff_lt_or_eq.mp hj with h | h
          · exact absurd hpj (by simp [hnone j h])
          · exact h
        subst hjn
        exact List.find?_cons_of_pos _ hpj

lemma firstOwnedIdx_eq_some {f : Nat → Nat} {nt r j : Nat} :
    firstOwnedIdx f nt r = some j
      ↔ (j < nt ∧ f j = r ∧ ∀ i, i < j → f i ≠ r) := by
  rw [firstOwnedIdx, find?_range_eq_some]
  constructor
  · rintro ⟨h1, h2, h3⟩
    exact ⟨h1, by simpa using h2, fun i hi => by simpa using h3 i hi⟩
  · rintro ⟨h1, h2, h3⟩
    exact ⟨h1, by simpa using h2, fun i hi => by simpa using h3 i hi⟩

lemma mem_ranksList {f : Nat → Nat} {nt r : Nat} :
    r ∈ ranksList f nt ↔ ∃ j, j < nt ∧ f j = r := by
  rw [ranksList, List.mem_insertionSort, List.mem_dedup]
  simp only [List.mem_map, List.mem_range]

lemma mem_rankIndices {f : Nat → Nat} {nt : Nat} {rj : Nat × Nat} :
    rj ∈ rankIndices f nt
      ↔ (rj.2 < nt ∧ f rj.2 = rj.1 ∧ ∀ i, i < rj.2 → f i ≠ rj.1) := by
  rw [rankIndices, List.mem_insertionSort, List.mem_filterMap]
  constructor
  · rintro ⟨r, hr, hmap⟩
    cases hfo : firstOwnedIdx f nt r with
    | none =>
      rw [hfo] at hmap
      exact absurd hmap (by simp)
    | some j =>
      rw [hfo] at hmap
      simp only [Option.map_some'] at hmap
      have heq : (r, j) = rj := by injection hmap
      rw [← heq]
      exact firstOwnedIdx_eq_some.mp hfo
  · rintro ⟨hj, hf, hmin⟩
    refine ⟨rj.1, mem_ranksList.mpr ⟨rj.2, hj, hf⟩, ?_⟩
    rw [firstOwnedIdx_eq_some.mpr ⟨hj, hf, hmin⟩]
    simp

lemma ranksList_nodup {f : Nat → Nat} {nt : Nat} :
    (ranksList f nt).Nodup := by
  rw [ranksList]
  exact ((List.perm_insertionSort _ _).nodup_iff).mpr
    (List.nodup_dedup _)

lemma rankIndices_pairwise_ne {f : Nat → Nat} {nt : Nat} :
    (rankIndices f nt).Pairwise (fun a b : Nat × Nat => a.2 ≠ b.2) := by
  rw [rankIndices]
  apply ((List.perm_insertionSort _ _).pairwise_iff
    (fun h => Ne.symm h)).mpr
  rw [List.pairwise_filterMap]
  apply List.Pairwise.imp ?_ ranksList_nodup
  intro r r' hrr b hb b' hb' hbb
  cases hfo : firstOwnedIdx f nt r with
  | none =>
    rw [hfo] at hb
    exact absurd hb (by simp)
  | some j =>
    rw [hfo] at hb
    cases hfo' : firstOwnedIdx f nt r' with
    | none =>
      rw [hfo'] at hb'
      exact absurd hb' (by simp)
    | some j' =>
      rw [hfo'] at hb'
      simp only [Option.map_some', Option.mem_def, Option.some_inj] at hb hb'
      rw [← hb, ← hb'] at hbb
      simp only [] at hbb
      obtain ⟨_, hfj, _⟩ := firstOwnedIdx_eq_some.mp hfo
      obtain ⟨_, hfj', _⟩ := firstOwnedIdx_eq_some.mp hfo'
      apply hrr
      rw [← hfj, ← hfj', hbb]

lemma rankIndices_sorted {f : Nat → Nat} {nt : Nat} :
    (rankIndices f nt).Pairwise (fun a b : Nat × Nat => a.2 < b.2) := by
  have hle : (rankIndices f nt).Pairwise (fun a b : Nat × Nat => a.2 ≤ b.2) := by
    rw [rankIndices]
    haveI : IsTotal (Nat × Nat) (fun a b : Nat × Nat => a.2 ≤ b.2) :=
      ⟨fun a b => Nat.le_total a.2 b.2⟩
    haveI : IsTrans (Nat × Nat) (fun a b : Nat × Nat => a.2 ≤ b.2) :=
      ⟨fun _ _ _ hab hbc => Nat.le_trans hab hbc⟩
    exact List.sorted_insertionSort _ _
  exact (hle.and rankIndices_pairwise_ne).imp
    (fun h => Nat.lt_of_le_of_ne h.1 h.2)

/-- C5: for a matrix A of one row of tiles, `rank_indices` contains the
pair (r, j) exactly when j is in range, rank r owns tile (0, j) and no
earlier column of the row is owned by r (so there is exactly one pair per
rank owning a tile, paired with its first owned column); the list is
sorted in strictly ascending column order; and every rank owning a tile
appears.  (`rankIndices` is a pure function of the distribution `f`, so
every rank computes the identical list with no coordination message.) -/
theorem rank_indices_spec (f : Nat → Nat) (nt : Nat) :
    (∀ r j, (r, j) ∈ rankIndices f nt
        ↔ (j < nt ∧ f j = r ∧ ∀ j', j' < j → f j' ≠ r))
      ∧ (rankIndices f nt).Pairwise (fun a b : Nat × Nat => a.2 < b.2)
      ∧ (∀ r, (∃ j, j < nt ∧ f j = r) →
          ∃ j, (r, j) ∈ rankIndices f nt) := by
  refine ⟨?_, rankIndices_sorted, ?_⟩
  · intro r j
    exact mem_rankIndices
  · intro r hex
    refine ⟨Nat.find hex, mem_rankIndices.mpr
      ⟨(Nat.find_spec hex).1, (Nat.find_spec hex).2, ?_⟩⟩
    intro i hi hfi
    exact Nat.find_min hex hi ⟨Nat.lt_trans hi (Nat.find_spec hex).1, hfi⟩

/-- Witness for C5 on the identity distribution over two columns: rank 1
owns a tile, so it appears in the participant list. -/
theorem rank_indices_spec_witness :
    (∃ j, j < 2 ∧ (fun x : Nat => x) j = 1)
      ∧ (∃ j, ((1 : Nat), j) ∈ rankIndices (fun x : Nat => x) 2) :=
  ⟨⟨1, by decide, rfl⟩,
    (rank_indices_spec (fun x => x) 2).2.2 1 ⟨1, by decide, rfl⟩⟩

end internal

end slate
